import Mathlib

/-!
# Verification of the sentence-highlighter engine

Shallow embedding of `sentence-highlighter.js` (the sentence segmentation and
highlight synchronisation engine).  Text is modelled as `List Char`, character
offsets as `Nat`.  The DOM boundary (element classes, attributes, callbacks)
is modelled as an explicit effect trace; stateful methods become pure
functions `State → State × List Effect`.
-/

namespace SentenceHighlighter

/-- Default `options.sentenceEndings` (`['.', '!', '?']`). -/
def defaultSentenceEndings : List Char := ['.', '!', '?']

/-- Membership in the configured terminator set (the character class the
regex in `buildSentenceMap` is built from). -/
def isTerminator (ends : List Char) (c : Char) : Bool := ends.contains c

/-- ASCII portion of the whitespace class used by JS `\s` and
`String.prototype.trim` (space, tab, LF, VT, FF, CR). -/
def isJsSpace (c : Char) : Bool :=
  c = ' ' || c = '\t' || c = '\n' || c = '\x0b' || c = '\x0c' || c = '\r'

/-- JS `String.prototype.trim`: strip leading and trailing whitespace. -/
def jsTrim (s : List Char) : List Char :=
  ((s.dropWhile isJsSpace).reverse.dropWhile isJsSpace).reverse

/-- The `Sentence` record (`{id, text, start, end, isHeading}`); the JS field
`end` is a reserved word in Lean and is rendered `stop`. -/
structure Sentence where
  id : String
  text : List Char
  start : Nat
  stop : Nat
  isHeading : Bool
deriving Repr, DecidableEq

/-! ## Identity assigner: `simpleHash` / `generateSentenceId` -/

/-- JS `ToInt32`: reduce an integer to the range `[-2^31, 2^31)`. -/
def toInt32 (i : Int) : Int :=
  let m := i % 4294967296
  if m < 2147483648 then m else m - 4294967296

/-- `charCodeAt` (UTF-16 code unit; equals the code point on the BMP,
which covers every string this library hashes in the claims). -/
def jsCharCode (c : Char) : Int := Int.ofNat c.toNat

/-- One step of `simpleHash`:
`hash = ((hash << 5) - hash) + char; hash = hash & hash`.
`hash << 5` wraps at 32 bits; the outer sum is exact in a JS Number and
`hash & hash` truncates back to a signed 32-bit integer. -/
def simpleHashStep (h : Int) (c : Char) : Int :=
  toInt32 (toInt32 (h * 32) - h + jsCharCode c)

/-- `simpleHash(str)`: 32-bit rolling hash over the code units. -/
def simpleHash (s : List Char) : Int := s.foldl simpleHashStep 0

/-- Digit for `Number.prototype.toString(36)` (0-9 then a-z). -/
def base36Digit (n : Nat) : Char :=
  if n < 10 then Char.ofNat (48 + n) else Char.ofNat (87 + n)

/-- Digit-accumulating loop of base-36 rendering.  The fuel bounds the digit
count; `simpleHash` values satisfy `|h| ≤ 2^31 < 36^7`, so the 8 supplied by
`toBase36` never runs out. -/
def toBase36Aux : Nat → Nat → List Char → List Char
  | 0, _, acc => acc
  | _ + 1, 0, acc => acc
  | fuel + 1, n + 1, acc =>
    toBase36Aux fuel ((n + 1) / 36) (base36Digit ((n + 1) % 36) :: acc)

/-- `Math.abs(hash).toString(36)` for 32-bit inputs. -/
def toBase36 (n : Nat) : List Char :=
  if n = 0 then ['0'] else toBase36Aux 8 n []

/-- `generateSentenceId(start, end, text, isHeading)`:
`"sentence-" + simpleHash(start + "-" + end + "-" + text.substring(0,20) + "-" + isHeading).toString(36)` (after `Math.abs`). -/
def generateSentenceId (start stop : Nat) (text : List Char) (heading : Bool) : String :=
  let input : List Char :=
    (Nat.repr start).data ++ '-' :: (Nat.repr stop).data ++ '-' :: text.take 20
      ++ '-' :: (if heading then "true" else "false").data
  "sentence-" ++ String.mk (toBase36 (simpleHash input).natAbs)

/-! ## Tokenizer: `buildSentenceMap`

The JS code repeatedly applies the regex `[^T]+[T]?\s*` (`T` = configured
terminators) with the `g` flag.  For this pattern shape greedy matching never
backtracks, so one `exec` is: skip characters until the first non-terminator,
then consume the maximal run of non-terminators, at most one terminator, and
the maximal run of following whitespace. -/

/-- One regex match starting at a non-terminator `c`: the matched chunk
(`[^T]+[T]?\s*`) and the unconsumed rest.  `c :: cs = chunk ++ rest`. -/
def matchChunk (ends : List Char) (c : Char) (cs : List Char) : List Char × List Char :=
  let a := cs.takeWhile (fun d => !(isTerminator ends d))
  let r := cs.dropWhile (fun d => !(isTerminator ends d))
  match r with
  | [] => (c :: a, [])
  | t :: r2 => (c :: a ++ t :: r2.takeWhile isJsSpace, r2.dropWhile isJsSpace)

/-- The final `if (lastIndex < text.length)` block of `buildSentenceMap`:
the leftover tail becomes one sentence when it does not trim to nothing. -/
def remainingSentences (lastIndex : Nat) (rem : List Char) : List Sentence :=
  match rem with
  | [] => []
  | _ :: _ =>
    if 0 < (jsTrim rem).length then
      [{ id := generateSentenceId lastIndex (lastIndex + rem.length) rem false,
         text := rem, start := lastIndex, stop := lastIndex + rem.length,
         isHeading := false }]
    else []

/-- The `while ((match = regex.exec(text)) !== null)` loop followed by the
leftover handling.  `cs` is the suffix of the text at absolute position `p`,
`rem` the suffix at `lastIndex` (the end of the previous match).  Every step
consumes at least one character of `cs`, so fuel `cs.length` is enough; the
fuel-0 case coincides with the `cs = []` case it can only be reached in. -/
def scanLoop (ends : List Char) : Nat → List Char → Nat → Nat → List Char → List Sentence
  | 0, _, _, lastIndex, rem => remainingSentences lastIndex rem
  | _ + 1, [], _, lastIndex, rem => remainingSentences lastIndex rem
  | fuel + 1, c :: cs, p, lastIndex, rem =>
    if isTerminator ends c then
      scanLoop ends fuel cs (p + 1) lastIndex rem
    else
      let step := matchChunk ends c cs
      { id := generateSentenceId p (p + step.1.length) step.1 false,
        text := step.1, start := p, stop := p + step.1.length, isHeading := false }
        :: scanLoop ends fuel step.2 (p + step.1.length) (p + step.1.length) step.2

/-- `buildSentenceMap()` on the plain text.  The final
`if (sentences.length === 0 && text.trim().length > 0)` fallback is kept for
fidelity although (as proved below) it can never fire. -/
def buildSentenceMap (ends : List Char) (text : List Char) : List Sentence :=
  if (jsTrim text).length = 0 then []
  else
    let sentences := scanLoop ends text.length text 0 0 text
    if sentences.length = 0 then
      [{ id := generateSentenceId 0 text.length text false,
         text := text, start := 0, stop := text.length, isHeading := false }]
    else sentences

/-! ## Active sentence resolution: `findActiveSentenceIndex` -/

/-- The `for (let i = 0; i < sentences.length; i++)` loop: containment in
`[start, end)` selects `i`; a caret exactly at `end` with a successor selects
`i + 1`.  `n` is the total sentence count (for the `i < length - 1` test). -/
def findActiveLoop (n caretOffset : Nat) : Nat → List Sentence → Option Nat
  | _, [] => none
  | i, s :: rest =>
    if s.start ≤ caretOffset ∧ caretOffset < s.stop then some i
    else if caretOffset = s.stop ∧ i < n - 1 then some (i + 1)
    else findActiveLoop n caretOffset (i + 1) rest

/-- `findActiveSentenceIndex(sentences, caretOffset)`: the loop, then the
last-sentence fallback (`caretOffset >= lastSentence.start`), else `-1`. -/
def findActiveSentenceIndex (sentences : List Sentence) (caretOffset : Nat) : Int :=
  match findActiveLoop sentences.length caretOffset 0 sentences with
  | some i => Int.ofNat i
  | none =>
    match sentences.getLast? with
    | none => -1
    | some last =>
      if last.start ≤ caretOffset then Int.ofNat (sentences.length - 1) else -1

/-- The exact substring of `text` between offsets `a` and `b`. -/
def slice (text : List Char) (a b : Nat) : List Char := (text.drop a).take (b - a)

/-! ## Engine state, options and the effect trace

The DOM and the configured callbacks are an external boundary; each update
function returns the list of observable effects it performs there, in order. -/

/-- The option fields the modelled operations consult. -/
structure Options where
  sentenceEndings : List Char
  autoScroll : Bool
  /-- whether `options.onSentenceChange` is configured -/
  hasOnSentenceChange : Bool
  /-- whether `options.onActiveSentenceChange` is configured -/
  hasOnActiveSentenceChange : Bool
deriving Repr, DecidableEq

/-- `options.activeSentenceClass` default. -/
def activeSentenceClass : String := "sentence--active"

/-- `options.activeSentenceDataAttribute` default. -/
def activeSentenceDataAttribute : String := "data-sentence-active"

/-- Mutable per-instance state.  `text`, `htmlLength`, `caretOffset` and
`domHighlightCount` stand for what `getPlainText()`, `innerHTML.length`,
`getCaretOffset()` and the `querySelectorAll('[data-sentence-id]')` count
would read from the DOM at this point. -/
structure EngineState where
  text : List Char
  htmlLength : Nat
  caretOffset : Nat
  domHighlightCount : Nat
  /-- `this.sentenceMap` values in insertion order -/
  sentenceMap : List Sentence
  /-- ids that have a rendered element (`this.sentenceElements` keys) -/
  sentenceElements : List String
  activeSentenceId : Option String
  /-- `this.lastContentHash`; `none` covers both the initial `null` and the
  `''` written by the empty branch (neither equals a real hash) -/
  lastContentHash : Option (Nat × Nat)
deriving Repr, DecidableEq

/-- Observable effects at the DOM/callback boundary. -/
inductive Effect where
  /-- `clearAllHighlights()`: unwrap every sentence span -/
  | clearHighlights
  /-- `rebuildHighlights`: replace the surface content with fresh spans -/
  | rebuild (sentences : List Sentence) (activeIndex : Int)
  | removeClass (id cls : String)
  | removeAttr (id attr : String)
  | addClass (id cls : String)
  | setAttr (id attr val : String)
  /-- `options.onSentenceChange(sentences)` invocation -/
  | sentenceChangeCallback (sentences : List Sentence)
  /-- `options.onActiveSentenceChange(index, sentence)` invocation -/
  | activeSentenceChangeCallback (index : Nat) (s : Option Sentence)
  | scrollCaretToCenter
deriving Repr, DecidableEq

/-- `getContentHash()`: `plainText.length + '-' + innerHTML.length`,
modelled as the pair of lengths. -/
def getContentHash (st : EngineState) : Nat × Nat := (st.text.length, st.htmlLength)

/-- `hasValidHighlights()`: element map non-empty and sentence spans present
in the DOM. -/
def hasValidHighlights (st : EngineState) : Bool :=
  0 < st.sentenceElements.length && 0 < st.domHighlightCount

/-- The `if (this.activeSentenceId)` block removing the active marker from
the previous element (shared by both update paths). -/
def removeOldActiveEffects (st : EngineState) : List Effect :=
  match st.activeSentenceId with
  | none => []
  | some oldId =>
    if st.sentenceElements.contains oldId then
      [.removeClass oldId activeSentenceClass,
       .removeAttr oldId activeSentenceDataAttribute]
    else []

/-- Adding the active marker to the element of `newActiveId` (if rendered). -/
def addNewActiveEffects (st : EngineState) (newActiveId : String) : List Effect :=
  if st.sentenceElements.contains newActiveId then
    [.addClass newActiveId activeSentenceClass,
     .setAttr newActiveId activeSentenceDataAttribute "true"]
  else []

/-- `this.sentenceMap.get(id)` (first sentence with this id). -/
def sentenceMapGet (st : EngineState) (id : String) : Option Sentence :=
  st.sentenceMap.find? (fun s => s.id == id)

/-- `updateActiveSentenceFromMap(sentences, activeIndex)` — the incremental
branch of a scan.  Guards aside, it unconditionally moves the marker and
fires the callback; there is no id-equality short-circuit here. -/
def updateActiveSentenceFromMap (opts : Options) (st : EngineState)
    (sentences : List Sentence) (activeIndex : Int) : EngineState × List Effect :=
  if activeIndex < 0 then (st, [])
  else
    match sentences.get? activeIndex.toNat with
    | none => (st, [])
    | some active =>
      let cb :=
        if opts.hasOnActiveSentenceChange then
          [Effect.activeSentenceChangeCallback activeIndex.toNat
            (sentenceMapGet st active.id)]
        else []
      ({ st with activeSentenceId := some active.id },
       removeOldActiveEffects st ++ addNewActiveEffects st active.id ++ cb)

/-- `updateActiveSentence()` — the navigation-driven path.  Re-resolves the
active index from the caret and short-circuits when the resolved id equals
the current one.  (`!this.sentenceElements` is never true after
construction, so the first guard reduces to the `sentenceMap.size === 0`
test; `findActiveSentenceIndex` always returns an in-range index or `-1`,
so the `get?` mirrors the JS in-range array access.) -/
def updateActiveSentence (opts : Options) (st : EngineState) :
    EngineState × List Effect :=
  if st.sentenceMap.length = 0 then (st, [])
  else
    let sentences := st.sentenceMap
    let activeIndex := findActiveSentenceIndex sentences st.caretOffset
    if activeIndex < 0 then (st, [])
    else
      match sentences.get? activeIndex.toNat with
      | none => (st, [])
      | some active =>
        if some active.id = st.activeSentenceId then (st, [])
        else
          let cb :=
            if opts.hasOnActiveSentenceChange then
              [Effect.activeSentenceChangeCallback activeIndex.toNat
                (sentenceMapGet st active.id)]
            else []
          let scroll := if opts.autoScroll then [Effect.scrollCaretToCenter] else []
          ({ st with activeSentenceId := some active.id },
           removeOldActiveEffects st ++ addNewActiveEffects st active.id
             ++ cb ++ scroll)

/-- `rebuildHighlights(sentences, activeIndex, caretOffset)`: recreate one
span per sentence; `this.activeSentenceId` is reassigned only when
`activeIndex` is in range. -/
def rebuildHighlights (st : EngineState) (sentences : List Sentence)
    (activeIndex : Int) : EngineState × List Effect :=
  if sentences.length = 0 then
    ({ st with sentenceElements := [] }, [.clearHighlights])
  else
    let newActive :=
      if activeIndex < 0 then st.activeSentenceId
      else
        match sentences.get? activeIndex.toNat with
        | none => st.activeSentenceId
        | some s => some s.id
    ({ st with
        sentenceElements := sentences.map (·.id),
        activeSentenceId := newActive,
        domHighlightCount := sentences.length },
     [.rebuild sentences activeIndex])

/-- `scanAndHighlight()`.  Empty/whitespace-only text clears everything and
returns at once — before the `onSentenceChange` callback step.  Otherwise
the content fingerprint decides between a full rebuild and the incremental
`updateActiveSentenceFromMap`, the virtual model is replaced, and the
callback/auto-scroll steps run. -/
def scanAndHighlight (opts : Options) (st : EngineState) :
    EngineState × List Effect :=
  if (jsTrim st.text).length = 0 then
    ({ st with
        sentenceMap := [], sentenceElements := [],
        activeSentenceId := none, lastContentHash := none },
     [.clearHighlights])
  else
    let contentHash := getContentHash st
    let newSentences := buildSentenceMap opts.sentenceEndings st.text
    if newSentences.length = 0 then (st, [])
    else
      let activeIndex := findActiveSentenceIndex newSentences st.caretOffset
      let needsRebuild :=
        some contentHash ≠ st.lastContentHash
          ∨ st.sentenceElements.length = 0
          ∨ hasValidHighlights st = false
      let step :=
        if needsRebuild then
          let r := rebuildHighlights st newSentences activeIndex
          ({ r.1 with lastContentHash := some contentHash }, r.2)
        else updateActiveSentenceFromMap opts st newSentences activeIndex
      let cb :=
        if opts.hasOnSentenceChange then
          [Effect.sentenceChangeCallback newSentences]
        else []
      let scroll := if opts.autoScroll then [Effect.scrollCaretToCenter] else []
      ({ step.1 with sentenceMap := newSentences }, step.2 ++ cb ++ scroll)

/-! ## Signal subscriptions and `destroy()` -/

/-- The six handler functions passed to `addEventListener` in
`attachEvents()`; three are anonymous arrow functions that are never stored
anywhere. -/
inductive HandlerRef where
  | handleInput
  /-- anonymous: terminator keydown fast path (schedules `scanAndHighlight`) -/
  | keydownAnon
  | handleNavigation
  /-- anonymous: navigation-key keyup (calls `handleNavigation`) -/
  | keyupAnon
  | handleCaretMove
  /-- anonymous: focus (calls `handleNavigation`) -/
  | focusAnon
deriving Repr, DecidableEq

/-- Where a listener is attached. -/
inductive SignalTarget where
  | editor
  | documentTarget
deriving Repr, DecidableEq

/-- One installed signal subscription. -/
structure Listener where
  target : SignalTarget
  eventName : String
  handler : HandlerRef
deriving Repr, DecidableEq

/-- The six subscriptions installed by `attachEvents()`, in order. -/
def attachEventsListeners : List Listener :=
  [⟨.editor, "input", .handleInput⟩,
   ⟨.editor, "keydown", .keydownAnon⟩,
   ⟨.editor, "click", .handleNavigation⟩,
   ⟨.editor, "keyup", .keyupAnon⟩,
   ⟨.documentTarget, "selectionchange", .handleCaretMove⟩,
   ⟨.editor, "focus", .focusAnon⟩]

/-- `removeEventListener`: detaches exactly the subscriptions matching the
given target, event name and handler reference. -/
def removeEventListener (ls : List Listener) (l : Listener) : List Listener :=
  ls.filter (fun x => x ≠ l)

/-- The three `removeEventListener` calls `destroy()` makes. -/
def destroyRemovals : List Listener :=
  [⟨.editor, "input", .handleInput⟩,
   ⟨.editor, "click", .handleNavigation⟩,
   ⟨.documentTarget, "selectionchange", .handleCaretMove⟩]

/-- The subscriptions still attached after `destroy()` has run its
`removeEventListener` calls. -/
def listenersAfterDestroy : List Listener :=
  destroyRemovals.foldl removeEventListener attachEventsListeners

/-- Whether a handler, when its signal fires, schedules a scan or an
active-sentence update (every one of the six does). -/
def handlerSchedulesUpdate : HandlerRef → Bool
  | .handleInput => true
  | .keydownAnon => true
  | .handleNavigation => true
  | .keyupAnon => true
  | .handleCaretMove => true
  | .focusAnon => true

/-- Every method defined on the `SentenceHighlighter` class (the whole
repository defines no others and extends no prototype). -/
def sentenceHighlighterMethods : List String :=
  ["constructor", "init", "injectCSS", "attachEvents", "handleInput",
   "handleNavigation", "handleCaretMove", "generateSentenceId", "simpleHash",
   "getCaretOffset", "setCaretOffset", "buildSentenceMap", "getPlainText",
   "getContentHash", "findActiveSentenceId", "scanAndHighlight",
   "findActiveSentenceIndex", "hasValidHighlights", "clearAllHighlights",
   "rebuildHighlights", "updateActiveSentenceFromMap", "updateActiveSentence",
   "scrollCaretToCenter", "setFocusMode", "toggleFocusMode", "getSentences",
   "getActiveSentence", "getActiveSentenceIndex", "update", "destroy"]

/-- A thrown JS exception. -/
inductive JsException where
  | typeError (message : String)
deriving Repr, DecidableEq

/-- `destroy()`: cancels the timer, runs the three `removeEventListener`
calls, then iterates `for (const id of this.sentenceMap.keys())` invoking
`this.removeSentenceHighlight(id)`.  That name is not a method of the class,
so the first iteration of a non-empty map throws a `TypeError` and the
remaining clean-up never runs.  On success it returns the cleared state and
the listeners still attached. -/
def destroy (st : EngineState) : Except JsException (EngineState × List Listener) :=
  match st.sentenceMap with
  | [] =>
    .ok ({ st with
            sentenceMap := []
            sentenceElements := []
            activeSentenceId := none }, listenersAfterDestroy)
  | _ :: _ =>
    if sentenceHighlighterMethods.contains "removeSentenceHighlight" then
      .ok ({ st with
              sentenceMap := []
              sentenceElements := []
              activeSentenceId := none }, listenersAfterDestroy)
    else .error (.typeError "this.removeSentenceHighlight is not a function")

/-! ## Focus mode -/

/-- A JS runtime value, as far as return types are concerned here. -/
inductive JsValue where
  | undefined
  | boolVal (b : Bool)
deriving Repr, DecidableEq

/-- The state `setFocusMode`/`toggleFocusMode` touch. -/
structure FocusState where
  focusModeEnabled : Bool
  /-- whether the editor carries the `sentence-highlighter-focus-off` class -/
  editorHasFocusOffClass : Bool
deriving Repr, DecidableEq

/-- `setFocusMode(enabled)`: store the flag and toggle the CSS class. -/
def setFocusMode (_st : FocusState) (enabled : Bool) : FocusState :=
  { focusModeEnabled := enabled, editorHasFocusOffClass := !enabled }

/-- `toggleFocusMode()`: `this.setFocusMode(!this.focusModeEnabled);` — the
body has no `return` statement, so the call evaluates to `undefined`. -/
def toggleFocusMode (st : FocusState) : FocusState × JsValue :=
  (setFocusMode st (!st.focusModeEnabled), JsValue.undefined)

/-! ## Concrete fixtures -/

/-- A one-sentence document. -/
def helloText : List Char := "Hello.".data

/-- Its tokenisation. -/
def exSentences : List Sentence := buildSentenceMap defaultSentenceEndings helloText

/-- Options with only the active-sentence callback configured and
auto-scroll off. -/
def exOpts : Options :=
  { sentenceEndings := defaultSentenceEndings, autoScroll := false,
    hasOnSentenceChange := false, hasOnActiveSentenceChange := true }

/-- Options with both callbacks configured. -/
def exOptsCallbacks : Options :=
  { sentenceEndings := defaultSentenceEndings, autoScroll := false,
    hasOnSentenceChange := true, hasOnActiveSentenceChange := true }

/-- A fully rendered, fingerprint-matching state for `helloText` whose
active id is already the (single) sentence's id: a scan from here takes the
incremental branch and resolves the same active id. -/
def exIncrementalState : EngineState :=
  { text := helloText, htmlLength := 40, caretOffset := 2,
    domHighlightCount := 1, sentenceMap := exSentences,
    sentenceElements := exSentences.map (·.id),
    activeSentenceId := (exSentences.map (·.id)).head?,
    lastContentHash := some (helloText.length, 40) }

/-- A state whose surface text has been cleared to whitespace while the
previous scan's sentences are still stored. -/
def exClearedState : EngineState :=
  { text := "  ".data, htmlLength := 2, caretOffset := 0,
    domHighlightCount := 1, sentenceMap := exSentences,
    sentenceElements := exSentences.map (·.id),
    activeSentenceId := (exSentences.map (·.id)).head?,
    lastContentHash := some (helloText.length, 40) }

/-- Recogniser for `onActiveSentenceChange` invocations in an effect trace. -/
def isActiveChangeCallback : Effect → Bool
  | .activeSentenceChangeCallback _ _ => true
  | _ => false

/-- Recogniser for `onSentenceChange` invocations in an effect trace. -/
def isSentenceChangeCallback : Effect → Bool
  | .sentenceChangeCallback _ => true
  | _ => false

/-- Recogniser for rendered-region class/attribute mutations. -/
def isRegionMutation : Effect → Bool
  | .addClass _ _ => true
  | .removeClass _ _ => true
  | .setAttr _ _ _ => true
  | .removeAttr _ _ => true
  | _ => false

/-- Executable check for exact contiguity (`end = start` links). -/
def contiguousB : List Sentence → Bool
  | [] => true
  | [_] => true
  | a :: b :: t => (a.stop == b.start) && contiguousB (b :: t)

/-- Executable check for ordered non-overlap (`end ≤ start` pairwise). -/
def orderedB : List Sentence → Bool
  | [] => true
  | a :: t => t.all (fun b => decide (a.stop ≤ b.start)) && orderedB t

end SentenceHighlighter

namespace SentenceHighlighter

/-! ## Tokenizer invariants

The scan loop maintains: every emitted sentence is an exact, in-bounds,
non-empty slice; sentences are emitted in order without overlap; every text
position it leaves uncovered holds a terminator character; and the last
emitted sentence (if any) ends at the end of the text. -/

theorem matchChunk_append (ends : List Char) (c : Char) (cs : List Char) :
    (matchChunk ends c cs).1 ++ (matchChunk ends c cs).2 = c :: cs := by
  unfold matchChunk
  have h := List.takeWhile_append_dropWhile (fun d => !(isTerminator ends d)) cs
  cases hr : cs.dropWhile (fun d => !(isTerminator ends d)) with
  | nil =>
    simp only [hr]
    rw [hr] at h
    simp only [List.append_nil] at h ⊢
    rw [h]
  | cons t r2 =>
    simp only [hr]
    have h2 := List.takeWhile_append_dropWhile isJsSpace r2
    rw [hr] at h
    simp only [List.cons_append, List.append_assoc, List.cons.injEq, true_and]
    rw [h2, h]

theorem matchChunk_fst_ne_nil (ends : List Char) (c : Char) (cs : List Char) :
    (matchChunk ends c cs).1 ≠ [] := by
  unfold matchChunk
  cases hr : cs.dropWhile (fun d => !(isTerminator ends d)) <;> simp

/-- If no character of `s` is whitespace, JS `trim` leaves `s` unchanged. -/
theorem jsTrim_eq_self_of_no_space (s : List Char)
    (h : ∀ x ∈ s, isJsSpace x = false) : jsTrim s = s := by
  have hdrop : ∀ (t : List Char), (∀ x ∈ t, isJsSpace x = false) →
      t.dropWhile isJsSpace = t := by
    intro t ht
    cases t with
    | nil => rfl
    | cons a t' => simp [List.dropWhile, ht a (by simp)]
  unfold jsTrim
  rw [hdrop s h, hdrop s.reverse (fun x hx => h x (List.mem_reverse.mp hx)),
    List.reverse_reverse]

/-- The leftover block: invariants, given that every position from
`lastIndex` on is a terminator character. -/
theorem remaining_invariant (ends : List Char)
    (hends : ∀ c : Char, isTerminator ends c = true → isJsSpace c = false)
    (text : List Char) (lastIndex : Nat)
    (hl : lastIndex ≤ text.length)
    (hgap : ∀ q (hq : q < text.length), lastIndex ≤ q →
        isTerminator ends (text.get ⟨q, hq⟩) = true) :
    (∀ s ∈ remainingSentences lastIndex (text.drop lastIndex),
        s.text = slice text s.start s.stop ∧ s.start < s.stop
          ∧ s.stop ≤ text.length ∧ lastIndex ≤ s.start)
    ∧ List.Chain' (fun a b => a.stop ≤ b.start)
        (remainingSentences lastIndex (text.drop lastIndex))
    ∧ (remainingSentences lastIndex (text.drop lastIndex) = [] →
        text.length ≤ lastIndex)
    ∧ (∀ s, (remainingSentences lastIndex (text.drop lastIndex)).getLast? = some s →
        s.stop = text.length) := by
  have hlen : (text.drop lastIndex).length = text.length - lastIndex :=
    List.length_drop lastIndex text
  cases hrem : text.drop lastIndex with
  | nil =>
    have hge : text.length ≤ lastIndex := List.drop_eq_nil_iff.mp hrem
    refine ⟨?_, ?_, ?_, ?_⟩
    · intro s hs; exact absurd hs (by simp [remainingSentences])
    · simp [remainingSentences]
    · intro _; exact hge
    · intro s h; exact Option.noConfusion h
  | cons d rem' =>
    -- every character of the leftover is a terminator, hence not whitespace
    have hterm : ∀ x ∈ d :: rem', isTerminator ends x = true := by
      intro x hx
      rw [← hrem] at hx
      obtain ⟨j, hx⟩ := List.mem_iff_get.mp hx
      obtain ⟨jv, hjlt⟩ := j
      have hj' : lastIndex + jv < text.length := by
        have hlt2 := hjlt
        rw [hlen] at hlt2
        omega
      have hg : (List.drop lastIndex text).get ⟨jv, hjlt⟩
          = text.get ⟨lastIndex + jv, hj'⟩ := List.get_drop' text
      rw [hg] at hx
      subst hx
      exact hgap (lastIndex + jv) hj' (Nat.le_add_right _ _)
    have hnospace : ∀ x ∈ d :: rem', isJsSpace x = false :=
      fun x hx => hends x (hterm x hx)
    have htrim : jsTrim (d :: rem') = d :: rem' :=
      jsTrim_eq_self_of_no_space _ hnospace
    have hpos : 0 < (jsTrim (d :: rem')).length := by rw [htrim]; simp
    have hout : remainingSentences lastIndex (d :: rem') =
        [{ id := generateSentenceId lastIndex (lastIndex + (d :: rem').length)
              (d :: rem') false,
           text := d :: rem', start := lastIndex,
           stop := lastIndex + (d :: rem').length, isHeading := false }] := by
      unfold remainingSentences
      rw [if_pos hpos]
    have hlast : lastIndex < text.length := by
      by_contra hcon
      have : text.drop lastIndex = [] := List.drop_eq_nil_iff.mpr (by omega)
      rw [hrem] at this
      exact List.noConfusion this
    have hlen' : (d :: rem').length = text.length - lastIndex := by
      rw [← hrem]; exact hlen
    refine ⟨?_, ?_, ?_, ?_⟩
    · intro s hs
      rw [hout, List.mem_singleton] at hs
      subst hs
      refine ⟨?_, by simp, by simp [hlen']; omega, Nat.le_refl _⟩
      show d :: rem' = slice text lastIndex (lastIndex + (d :: rem').length)
      unfold slice
      rw [hrem, Nat.add_sub_cancel_left, List.take_length]
    · rw [hout]; exact List.chain'_singleton _
    · intro h; rw [hout] at h; exact List.noConfusion h
    · rw [hout]
      intro s h
      rw [List.getLast?_singleton] at h
      obtain rfl : _ = s := Option.some.inj h
      show lastIndex + (d :: rem').length = text.length
      rw [hlen']; omega

/-- Unfolding equation of `scanLoop` on a non-empty suffix. -/
theorem scanLoop_cons (ends : List Char) (fuel : Nat) (c : Char)
    (cs' : List Char) (p lastIndex : Nat) (rem : List Char) :
    scanLoop ends (fuel + 1) (c :: cs') p lastIndex rem =
      if isTerminator ends c then
        scanLoop ends fuel cs' (p + 1) lastIndex rem
      else
        { id := generateSentenceId p (p + (matchChunk ends c cs').1.length)
            (matchChunk ends c cs').1 false,
          text := (matchChunk ends c cs').1, start := p,
          stop := p + (matchChunk ends c cs').1.length, isHeading := false }
          :: scanLoop ends fuel (matchChunk ends c cs').2
              (p + (matchChunk ends c cs').1.length)
              (p + (matchChunk ends c cs').1.length) (matchChunk ends c cs').2 := rfl

/-- Loop invariant of the scan: every emitted sentence is an exact,
in-bounds, non-empty slice starting at or after `lastIndex`; the output is
ordered without overlap; every position from `lastIndex` on that the output
leaves uncovered holds a terminator character; the output is empty only when
the text was exhausted at `lastIndex`; and the last sentence, if any, ends
at the end of the text. -/
theorem scanLoop_invariant (ends : List Char)
    (hends : ∀ c : Char, isTerminator ends c = true → isJsSpace c = false)
    (text : List Char) :
    ∀ (fuel : Nat) (cs : List Char) (p lastIndex : Nat),
      cs = text.drop p → cs.length ≤ fuel → lastIndex ≤ p → p ≤ text.length →
      (∀ q (hq : q < text.length), lastIndex ≤ q → q < p →
          isTerminator ends (text.get ⟨q, hq⟩) = true) →
      (∀ s ∈ scanLoop ends fuel cs p lastIndex (text.drop lastIndex),
          s.text = slice text s.start s.stop ∧ s.start < s.stop
            ∧ s.stop ≤ text.length ∧ lastIndex ≤ s.start)
      ∧ List.Chain' (fun a b => a.stop ≤ b.start)
          (scanLoop ends fuel cs p lastIndex (text.drop lastIndex))
      ∧ (∀ q (hq : q < text.length), lastIndex ≤ q →
          (∀ s ∈ scanLoop ends fuel cs p lastIndex (text.drop lastIndex),
              ¬(s.start ≤ q ∧ q < s.stop)) →
          isTerminator ends (text.get ⟨q, hq⟩) = true)
      ∧ (scanLoop ends fuel cs p lastIndex (text.drop lastIndex) = [] →
          text.length ≤ lastIndex)
      ∧ (∀ s, (scanLoop ends fuel cs p lastIndex (text.drop lastIndex)).getLast?
            = some s → s.stop = text.length) := by
  intro fuel
  induction fuel with
  | zero =>
    intro cs p lastIndex hcs hfuel hlp hp hgap
    have hcs0 : cs = [] := List.length_eq_zero.mp (Nat.le_zero.mp hfuel)
    subst hcs0
    have hplen : text.length ≤ p := List.drop_eq_nil_iff.mp hcs.symm
    have hgap' : ∀ q (hq : q < text.length), lastIndex ≤ q →
        isTerminator ends (text.get ⟨q, hq⟩) = true :=
      fun q hq hl2 => hgap q hq hl2 (by omega)
    obtain ⟨c1, c2, c4, c5⟩ :=
      remaining_invariant ends hends text lastIndex (by omega) hgap'
    exact ⟨c1, c2, fun q hq hl2 _ => hgap' q hq hl2, c4, c5⟩
  | succ fuel ih =>
    intro cs p lastIndex hcs hfuel hlp hp hgap
    cases cs with
    | nil =>
      have hplen : text.length ≤ p := List.drop_eq_nil_iff.mp hcs.symm
      have hgap' : ∀ q (hq : q < text.length), lastIndex ≤ q →
          isTerminator ends (text.get ⟨q, hq⟩) = true :=
        fun q hq hl2 => hgap q hq hl2 (by omega)
      obtain ⟨c1, c2, c4, c5⟩ :=
        remaining_invariant ends hends text lastIndex (by omega) hgap'
      exact ⟨c1, c2, fun q hq hl2 _ => hgap' q hq hl2, c4, c5⟩
    | cons c cs' =>
      have hlt : p < text.length := by
        by_contra hcon
        have hnil : text.drop p = [] := List.drop_eq_nil_iff.mpr (by omega)
        rw [← hcs] at hnil
        exact List.noConfusion hnil
      have hd : text.drop p = text.get ⟨p, hlt⟩ :: text.drop (p + 1) :=
        List.drop_eq_get_cons hlt
      rw [← hcs] at hd
      have hc : text.get ⟨p, hlt⟩ = c := (List.head_eq_of_cons_eq hd).symm
      have hcs' : cs' = text.drop (p + 1) := List.tail_eq_of_cons_eq hd
      have hfuel' : cs'.length ≤ fuel := by
        simp only [List.length_cons] at hfuel
        omega
      by_cases hterm : isTerminator ends c = true
      · -- terminator: the regex skips this character
        rw [scanLoop_cons, if_pos hterm]
        refine ih cs' (p + 1) lastIndex hcs' hfuel' (by omega) (by omega) ?_
        intro q hq hl2 hqp
        rcases Nat.lt_or_ge q p with h | h
        · exact hgap q hq hl2 h
        · have hqeq : (⟨q, hq⟩ : Fin text.length) = ⟨p, hlt⟩ := by
            apply Fin.ext
            show q = p
            omega
          rw [hqeq, hc]
          exact hterm
      · -- non-terminator: one full regex match is consumed
        rw [scanLoop_cons, if_neg hterm]
        have happ : (matchChunk ends c cs').1 ++ (matchChunk ends c cs').2
            = c :: cs' := matchChunk_append ends c cs'
        have hchpos : 0 < (matchChunk ends c cs').1.length :=
          List.length_pos.mpr (matchChunk_fst_ne_nil ends c cs')
        have hdrop_p : text.drop p
            = (matchChunk ends c cs').1 ++ (matchChunk ends c cs').2 := by
          rw [happ, ← hcs]
        have hlen_eq : (matchChunk ends c cs').1.length
            + (matchChunk ends c cs').2.length = text.length - p := by
          have hl1 := congrArg List.length hdrop_p
          rw [List.length_drop, List.length_append] at hl1
          omega
        have hplen2 : p + (matchChunk ends c cs').1.length ≤ text.length := by
          omega
        have hslice : (matchChunk ends c cs').1
            = slice text p (p + (matchChunk ends c cs').1.length) := by
          unfold slice
          rw [hdrop_p, Nat.add_sub_cancel_left, List.take_left]
        have hrest : (matchChunk ends c cs').2
            = text.drop (p + (matchChunk ends c cs').1.length) := by
          have h1 : ((matchChunk ends c cs').1 ++ (matchChunk ends c cs').2).drop
              (matchChunk ends c cs').1.length = (matchChunk ends c cs').2 :=
            List.drop_left _ _
          rw [← hdrop_p, List.drop_drop] at h1
          exact h1.symm
        have hfuel2 : (matchChunk ends c cs').2.length ≤ fuel := by
          have hl1 := congrArg List.length happ
          rw [List.length_append, List.length_cons] at hl1
          omega
        rw [hrest]
        obtain ⟨i1, i2, i3, i4, i5⟩ :=
          ih (text.drop (p + (matchChunk ends c cs').1.length))
            (p + (matchChunk ends c cs').1.length)
            (p + (matchChunk ends c cs').1.length)
            rfl (by rw [← hrest]; exact hfuel2) (Nat.le_refl _) hplen2
            (fun q hq hge hlt2 => absurd hlt2 (by omega))
        refine ⟨?_, ?_, ?_, ?_, ?_⟩
        · -- slices, positivity, bounds
          intro s hs
          rcases List.mem_cons.mp hs with hs | hs
          · subst hs
            refine ⟨hslice, ?_, hplen2, hlp⟩
            show p < p + (matchChunk ends c cs').1.length
            omega
          · obtain ⟨j1, j2, j3, j4⟩ := i1 s hs
            exact ⟨j1, j2, j3, by omega⟩
        · -- ordering
          refine List.chain'_cons'.mpr ⟨?_, i2⟩
          intro b hb
          have hbmem := List.mem_of_mem_head? hb
          obtain ⟨_, _, _, j4⟩ := i1 b hbmem
          exact j4
        · -- uncovered positions are terminators
          intro q hq hl2 hunc
          rcases Nat.lt_or_ge q p with h | h
          · exact hgap q hq hl2 h
          · rcases Nat.lt_or_ge q (p + (matchChunk ends c cs').1.length) with h2 | h2
            · exact absurd ⟨h, h2⟩ (hunc _ (List.mem_cons_self _ _))
            · exact i3 q hq h2 (fun s hs => hunc s (List.mem_cons_of_mem _ hs))
        · -- the output is non-empty here
          intro h
          exact List.noConfusion h
        · -- the last sentence ends at the end of the text
          intro s hlast
          cases hrec : scanLoop ends fuel
              (text.drop (p + (matchChunk ends c cs').1.length))
              (p + (matchChunk ends c cs').1.length)
              (p + (matchChunk ends c cs').1.length)
              (text.drop (p + (matchChunk ends c cs').1.length)) with
          | nil =>
            rw [hrec, List.getLast?_singleton] at hlast
            obtain rfl : _ = s := Option.some.inj hlast
            have hge := i4 hrec
            show p + (matchChunk ends c cs').1.length = text.length
            omega
          | cons r rs =>
            rw [hrec, List.getLast?_cons_cons] at hlast
            rw [← hrec] at hlast
            exact i5 s hlast

/-- The default terminators are not whitespace characters. -/
theorem defaultEndings_not_space :
    ∀ c : Char, isTerminator defaultSentenceEndings c = true → isJsSpace c = false := by
  intro c hc
  have hmem : c = '.' ∨ c = '!' ∨ c = '?' := by
    simpa [isTerminator, defaultSentenceEndings] using hc
  rcases hmem with rfl | rfl | rfl <;> decide

/-- `buildSentenceMap` invariants on any input that does not trim to
nothing: it agrees with the scan loop (the dead fallback never fires), is
non-empty, produces exact in-bounds non-empty slices in strict order, leaves
only terminator characters uncovered, and ends at the end of the text. -/
theorem buildSentenceMap_spec (ends : List Char)
    (hends : ∀ c : Char, isTerminator ends c = true → isJsSpace c = false)
    (text : List Char) (htext : (jsTrim text).length ≠ 0) :
    buildSentenceMap ends text = scanLoop ends text.length text 0 0 text
    ∧ buildSentenceMap ends text ≠ []
    ∧ (∀ s ∈ buildSentenceMap ends text,
        s.text = slice text s.start s.stop ∧ s.start < s.stop ∧ s.stop ≤ text.length)
    ∧ List.Chain' (fun a b => a.stop ≤ b.start) (buildSentenceMap ends text)
    ∧ (∀ q (hq : q < text.length),
        (∀ s ∈ buildSentenceMap ends text, ¬(s.start ≤ q ∧ q < s.stop)) →
        isTerminator ends (text.get ⟨q, hq⟩) = true)
    ∧ (∀ s, (buildSentenceMap ends text).getLast? = some s → s.stop = text.length) := by
  obtain ⟨c1, c2, c3, c4, c5⟩ :=
    scanLoop_invariant ends hends text text.length text 0 0
      (List.drop_zero text).symm (Nat.le_refl _) (Nat.le_refl 0) (Nat.zero_le _)
      (fun q hq _ h2 => absurd h2 (Nat.not_lt_zero q))
  rw [List.drop_zero] at c1 c2 c3 c4 c5
  have hne : scanLoop ends text.length text 0 0 text ≠ [] := by
    intro h0
    have hlen0 : text.length ≤ 0 := c4 h0
    have htnil : text = [] := List.length_eq_zero.mp (by omega)
    subst htnil
    exact htext rfl
  have heq : buildSentenceMap ends text = scanLoop ends text.length text 0 0 text := by
    unfold buildSentenceMap
    rw [if_neg htext]
    show (if (scanLoop ends text.length text 0 0 text).length = 0 then _
        else scanLoop ends text.length text 0 0 text)
      = scanLoop ends text.length text 0 0 text
    rw [if_neg (fun h0 => hne (List.length_eq_zero.mp h0))]
  rw [heq]
  exact ⟨rfl, hne, fun s hs => ⟨(c1 s hs).1, (c1 s hs).2.1, (c1 s hs).2.2.1⟩, c2,
    fun q hq hunc => c3 q hq (Nat.zero_le q) hunc, c5⟩

/-- Removing a slice from the front of a suffix. -/
theorem slice_append_drop (text : List Char) (a b : Nat) (hab : a ≤ b) :
    slice text a b ++ text.drop b = text.drop a := by
  unfold slice
  have h1 : text.drop b = (text.drop a).drop (b - a) := by
    rw [List.drop_drop]
    congr 1
    omega
  rw [h1, List.take_append_drop]

/-- Ordered contiguous exact slices concatenate to the suffix they cover. -/
theorem concat_eq_drop_of_contiguous (text : List Char) :
    ∀ (ss : List Sentence) (a : Nat),
      (∀ s ∈ ss, s.text = slice text s.start s.stop ∧ s.start ≤ s.stop) →
      List.Chain' (fun x y => x.stop = y.start) ss →
      (∀ s0, ss.head? = some s0 → s0.start = a) →
      (∀ sl, ss.getLast? = some sl → sl.stop = text.length) →
      ss ≠ [] →
      ((ss.map (·.text)).flatten = text.drop a) := by
  intro ss
  induction ss with
  | nil => intro a _ _ _ _ hne; exact absurd rfl hne
  | cons s rest ihr =>
    intro a hsl hchain hhead hlastp _
    have hsa : s.start = a := hhead s rfl
    obtain ⟨hstext, hsle⟩ := hsl s (List.mem_cons_self s rest)
    cases rest with
    | nil =>
      have hstop : s.stop = text.length := by
        apply hlastp s
        rw [List.getLast?_singleton]
      have h1 := slice_append_drop text a s.stop (hsa ▸ hsle)
      rw [hstop, List.drop_length, List.append_nil] at h1
      simp only [List.map_cons, List.map_nil, List.flatten_cons, List.flatten_nil,
        List.append_nil]
      rw [hstext, hsa, hstop]
      exact h1
    | cons t rest2 =>
      obtain ⟨hst, hchain2⟩ := List.chain'_cons.mp hchain
      have hrec : (((t :: rest2).map (·.text)).flatten = text.drop s.stop) := by
        apply ihr s.stop
        · exact fun u hu => hsl u (List.mem_cons_of_mem s hu)
        · exact hchain2
        · intro s0 h0
          obtain rfl : t = s0 := Option.some.inj h0
          exact hst.symm
        · intro sl hl
          apply hlastp sl
          rw [List.getLast?_cons_cons]
          exact hl
        · exact List.cons_ne_nil t rest2
      rw [List.map_cons, List.flatten_cons, hrec, hstext, hsa]
      exact slice_append_drop text a s.stop (hsa ▸ hsle)

/-- `contiguousB` decides the contiguity chain. -/
theorem contiguousB_iff :
    ∀ ss : List Sentence,
      contiguousB ss = true ↔ List.Chain' (fun x y => x.stop = y.start) ss := by
  intro ss
  induction ss with
  | nil => simp [contiguousB]
  | cons a t iht =>
    cases t with
    | nil => simp [contiguousB]
    | cons b t2 =>
      rw [List.chain'_cons, ← iht]
      show ((a.stop == b.start) && contiguousB (b :: t2)) = true ↔ _
      rw [Bool.and_eq_true, beq_iff_eq]

/-- `orderedB` decides the pairwise ordering. -/
theorem orderedB_iff :
    ∀ ss : List Sentence,
      orderedB ss = true ↔ List.Pairwise (fun a b => a.stop ≤ b.start) ss := by
  intro ss
  induction ss with
  | nil => simp [orderedB]
  | cons a t iht =>
    rw [List.pairwise_cons, ← iht]
    show (t.all (fun b => decide (a.stop ≤ b.start)) && orderedB t) = true ↔ _
    rw [Bool.and_eq_true, List.all_eq_true, and_congr_left_iff]
    intro _
    constructor
    · intro h b hb; exact of_decide_eq_true (h b hb)
    · intro h b hb; exact decide_eq_true (h b hb)

/-! ## C1 — round trip of the tokenizer -/

/-- C1 counterexample: on the non-empty input `".a"` the tokenizer drops the
leading terminator character — the concatenation of the sentence texts is
`"a"`, not `".a"`. -/
theorem buildSentenceMap_round_trip_counterexample :
    ".a".data ≠ []
    ∧ ((buildSentenceMap defaultSentenceEndings ".a".data).map (·.text)).flatten
        = "a".data
    ∧ ((buildSentenceMap defaultSentenceEndings ".a".data).map (·.text)).flatten
        ≠ ".a".data := by
  decide

/-- C1 amended: for every input that does not trim to nothing, each produced
sentence's text is the exact substring at its half-open span, spans are
strictly ordered and non-overlapping, and the only characters ever dropped
are terminator characters at positions no sentence covers; whenever the
spans are in fact contiguous from offset 0, the concatenation of the
sentence texts reconstructs the original text exactly.  (The unconditional
round trip fails: see the counterexample.) -/
theorem buildSentenceMap_round_trip_amended (text : List Char)
    (htext : (jsTrim text).length ≠ 0) :
    (∀ s ∈ buildSentenceMap defaultSentenceEndings text,
        s.text = slice text s.start s.stop ∧ s.start < s.stop ∧ s.stop ≤ text.length)
    ∧ List.Chain' (fun a b => a.stop ≤ b.start)
        (buildSentenceMap defaultSentenceEndings text)
    ∧ (∀ q (hq : q < text.length),
        (∀ s ∈ buildSentenceMap defaultSentenceEndings text,
            ¬(s.start ≤ q ∧ q < s.stop)) →
        isTerminator defaultSentenceEndings (text.get ⟨q, hq⟩) = true)
    ∧ (List.Chain' (fun x y => x.stop = y.start)
          (buildSentenceMap defaultSentenceEndings text) →
        (∀ s0, (buildSentenceMap defaultSentenceEndings text).head? = some s0 →
            s0.start = 0) →
        ((buildSentenceMap defaultSentenceEndings text).map (·.text)).flatten = text) := by
  obtain ⟨_, hne, c1, c2, c3, c5⟩ :=
    buildSentenceMap_spec defaultSentenceEndings defaultEndings_not_space text htext
  refine ⟨c1, c2, c3, ?_⟩
  intro hchain hhead
  have h := concat_eq_drop_of_contiguous text
    (buildSentenceMap defaultSentenceEndings text) 0
    (fun s hs => ⟨(c1 s hs).1, Nat.le_of_lt (c1 s hs).2.1⟩)
    hchain hhead c5 hne
  rwa [List.drop_zero] at h

/-- Auxiliary conversion used by witnesses: a computed check of the first
sentence's offset yields the head hypothesis of the round-trip theorem. -/
theorem head_start_zero_of_check (ss : List Sentence)
    (hh : ss.head?.map (fun s => s.start) = some 0) :
    ∀ s0, ss.head? = some s0 → s0.start = 0 := by
  intro s0 h
  rw [h] at hh
  exact Option.some.inj hh

set_option maxRecDepth 8192 in
/-- Witness for C1: on `"Hello world. How are you?"` the spans are
contiguous from 0 and the concatenation reconstructs the text. -/
theorem buildSentenceMap_round_trip_witness :
    ((buildSentenceMap defaultSentenceEndings
        "Hello world. How are you?".data).map (·.text)).flatten
      = "Hello world. How are you?".data :=
  (buildSentenceMap_round_trip_amended "Hello world. How are you?".data
      (by decide)).2.2.2 ((contiguousB_iff _).mp (by decide))
    (head_start_zero_of_check _ (by decide))

/-! ## C2 — ordering and contiguity -/

/-- C2 counterexample: on `"a. .b"` the two produced sentences are
`[0,3)` and `[4,5)` — ordered and non-overlapping, but `end` of the first
(3) is not `start` of the second (4): the skipped position 3 holds the
dropped terminator `'.'`. -/
theorem buildSentenceMap_contiguity_counterexample :
    (buildSentenceMap defaultSentenceEndings "a. .b".data).map
        (fun s => (s.start, s.stop)) = [(0, 3), (4, 5)]
    ∧ ¬ List.Chain' (fun x y => x.stop = y.start)
        (buildSentenceMap defaultSentenceEndings "a. .b".data) := by
  refine ⟨by decide, ?_⟩
  intro hch
  have hb := (contiguousB_iff _).mpr hch
  have hf : contiguousB (buildSentenceMap defaultSentenceEndings "a. .b".data)
      = false := by decide
  rw [hf] at hb
  exact Bool.noConfusion hb

/-- C2 amended: on every input that does not trim to nothing the sentence
sequence is strictly ordered and non-overlapping
(`sentences[i].end ≤ sentences[i+1].start`, `start < end`); equality
(`end = start` contiguity) can fail, but every position in a gap between
consecutive sentences holds a terminator character. -/
theorem buildSentenceMap_ordered_amended (text : List Char)
    (htext : (jsTrim text).length ≠ 0) :
    List.Chain' (fun a b => a.stop ≤ b.start)
        (buildSentenceMap defaultSentenceEndings text)
    ∧ (∀ s ∈ buildSentenceMap defaultSentenceEndings text, s.start < s.stop)
    ∧ (∀ q (hq : q < text.length),
        (∀ s ∈ buildSentenceMap defaultSentenceEndings text,
            ¬(s.start ≤ q ∧ q < s.stop)) →
        isTerminator defaultSentenceEndings (text.get ⟨q, hq⟩) = true) := by
  obtain ⟨_, _, c1, c2, c3, _⟩ :=
    buildSentenceMap_spec defaultSentenceEndings defaultEndings_not_space text htext
  exact ⟨c2, fun s hs => (c1 s hs).2.1, c3⟩

/-- Witness for C2: the ordering conclusions at the gapped text `"a. .b"`. -/
theorem buildSentenceMap_ordered_amended_witness :
    List.Chain' (fun a b => a.stop ≤ b.start)
        (buildSentenceMap defaultSentenceEndings "a. .b".data)
    ∧ ∀ s ∈ buildSentenceMap defaultSentenceEndings "a. .b".data,
        s.start < s.stop :=
  ⟨(buildSentenceMap_ordered_amended "a. .b".data (by decide)).1,
   (buildSentenceMap_ordered_amended "a. .b".data (by decide)).2.1⟩

/-! ## Resolution-loop lemmas -/

/-- Unfolding equation of `findActiveLoop` on a non-empty sequence. -/
theorem findActiveLoop_cons (n c i : Nat) (s : Sentence) (rest : List Sentence) :
    findActiveLoop n c i (s :: rest) =
      if s.start ≤ c ∧ c < s.stop then some i
      else if c = s.stop ∧ i < n - 1 then some (i + 1)
      else findActiveLoop n c (i + 1) rest := rfl

/-- The loop only ever answers an index below the total count. -/
theorem findActiveLoop_some_lt (n c : Nat) :
    ∀ (ss : List Sentence) (i k : Nat), i + ss.length = n →
      findActiveLoop n c i ss = some k → k < n := by
  intro ss
  induction ss with
  | nil => intro i k _ h; exact Option.noConfusion h
  | cons s rest ihr =>
    intro i k hn h
    rw [findActiveLoop_cons] at h
    simp only [List.length_cons] at hn
    by_cases h1 : s.start ≤ c ∧ c < s.stop
    · rw [if_pos h1] at h
      obtain rfl : i = k := Option.some.inj h
      omega
    · rw [if_neg h1] at h
      by_cases h2 : c = s.stop ∧ i < n - 1
      · rw [if_pos h2] at h
        obtain rfl : i + 1 = k := Option.some.inj h
        omega
      · rw [if_neg h2] at h
        exact ihr (i + 1) k (by omega) h

/-- When the loop answers nothing, no sentence's half-open span contains
the caret. -/
theorem findActiveLoop_none (n c : Nat) :
    ∀ (ss : List Sentence) (i : Nat), findActiveLoop n c i ss = none →
      ∀ s ∈ ss, ¬(s.start ≤ c ∧ c < s.stop) := by
  intro ss
  induction ss with
  | nil => intro i _ s hs; exact absurd hs (List.not_mem_nil s)
  | cons s rest ihr =>
    intro i h t ht
    rw [findActiveLoop_cons] at h
    by_cases h1 : s.start ≤ c ∧ c < s.stop
    · rw [if_pos h1] at h; exact Option.noConfusion h
    · rw [if_neg h1] at h
      by_cases h2 : c = s.stop ∧ i < n - 1
      · rw [if_pos h2] at h; exact Option.noConfusion h
      · rw [if_neg h2] at h
        rcases List.mem_cons.mp ht with rfl | ht2
        · exact h1
        · exact ihr (i + 1) h t ht2

/-- In a contiguous positive-span sequence, any caret left of the last
sentence's start is contained in some sentence. -/
theorem exists_containing_of_contiguous :
    ∀ (ss : List Sentence) (c : Nat),
      List.Chain' (fun x y => x.stop = y.start) ss →
      (∀ s ∈ ss, s.start < s.stop) →
      ∀ sl, ss.getLast? = some sl → c < sl.start →
      ∀ s0, ss.head? = some s0 → s0.start ≤ c →
      ∃ s ∈ ss, s.start ≤ c ∧ c < s.stop := by
  intro ss
  induction ss with
  | nil =>
    intro c _ _ sl hsl
    exact Option.noConfusion hsl
  | cons s rest ihr =>
    intro c hchain hpos sl hlast hcl s0 hhead hs0
    obtain rfl : s = s0 := Option.some.inj hhead
    cases rest with
    | nil =>
      rw [List.getLast?_singleton] at hlast
      obtain rfl : s = sl := Option.some.inj hlast
      exact absurd hcl (by omega)
    | cons t rest2 =>
      by_cases hcs : c < s.stop
      · exact ⟨s, List.mem_cons_self _ _, hs0, hcs⟩
      · obtain ⟨hst, hchain2⟩ := List.chain'_cons.mp hchain
        have hrec : ∃ u ∈ t :: rest2, u.start ≤ c ∧ c < u.stop := by
          apply ihr c hchain2 (fun u hu => hpos u (List.mem_cons_of_mem _ hu)) sl ?_
            hcl t rfl ?_
          · rw [← List.getLast?_cons_cons]
            exact hlast
          · omega
        obtain ⟨u, hu, h1, h2⟩ := hrec
        exact ⟨u, List.mem_cons_of_mem _ hu, h1, h2⟩

/-! ## C3 — totality of findActiveSentenceIndex -/

/-- C3 counterexample: the tokenizer output for `".a"` is non-empty and the
caret offset 0 lies in `[0, 2]`, yet `findActiveSentenceIndex` answers `-1`
(the dropped leading terminator leaves no sentence whose span reaches 0). -/
theorem findActiveSentenceIndex_total_counterexample :
    buildSentenceMap defaultSentenceEndings ".a".data ≠ []
    ∧ (0 : Nat) ≤ ".a".data.length
    ∧ findActiveSentenceIndex (buildSentenceMap defaultSentenceEndings ".a".data) 0
        = -1 := by
  decide

/-- C3 amended: on every non-empty sentence sequence whose spans are
positive and contiguous from offset 0 (which the tokenizer produces exactly
when it drops no characters), `findActiveSentenceIndex` is total: every
caret offset — in particular every offset in `[0, length]` — yields an
in-range index, never `-1`.  (On tokenizer outputs with dropped characters
it can return `-1`: see the counterexample.) -/
theorem findActiveSentenceIndex_total_contiguous
    (ss : List Sentence) (hne : ss ≠ [])
    (hhead : ∀ s0, ss.head? = some s0 → s0.start = 0)
    (hchain : List.Chain' (fun x y => x.stop = y.start) ss)
    (hpos : ∀ s ∈ ss, s.start < s.stop)
    (c : Nat) :
    0 ≤ findActiveSentenceIndex ss c
    ∧ findActiveSentenceIndex ss c < ss.length := by
  unfold findActiveSentenceIndex
  cases hloop : findActiveLoop ss.length c 0 ss with
  | some k =>
    have hk : k < ss.length :=
      findActiveLoop_some_lt ss.length c ss 0 k (Nat.zero_add _) hloop
    exact ⟨Int.ofNat_nonneg k, Int.ofNat_lt.mpr hk⟩
  | none =>
    cases hgl : ss.getLast? with
    | none => exact absurd (List.getLast?_eq_none.mp hgl) hne
    | some last =>
      by_cases hc : last.start ≤ c
      · show (0 : Int) ≤ (if last.start ≤ c then Int.ofNat (ss.length - 1) else -1)
          ∧ (if last.start ≤ c then Int.ofNat (ss.length - 1) else -1)
            < (ss.length : Int)
        rw [if_pos hc]
        have hlen : 0 < ss.length := List.length_pos.mpr hne
        exact ⟨Int.ofNat_nonneg _, Int.ofNat_lt.mpr (by omega)⟩
      · exfalso
        obtain ⟨s0, hs0⟩ : ∃ s0, ss.head? = some s0 := by
          cases ss with
          | nil => exact absurd rfl hne
          | cons x xs => exact ⟨x, rfl⟩
        obtain ⟨s, hs, h1, h2⟩ :=
          exists_containing_of_contiguous ss c hchain hpos last hgl (by omega)
            s0 hs0 (by rw [hhead s0 hs0]; exact Nat.zero_le c)
        exact absurd ⟨h1, h2⟩ (findActiveLoop_none ss.length c ss 0 hloop s hs)

set_option maxRecDepth 8192 in
/-- Witness for C3: at the contiguous tokenizer output for
`"Hello world. How are you?"` and caret 7 the resolved index is in range. -/
theorem findActiveSentenceIndex_total_contiguous_witness :
    0 ≤ findActiveSentenceIndex
        (buildSentenceMap defaultSentenceEndings "Hello world. How are you?".data) 7
    ∧ findActiveSentenceIndex
        (buildSentenceMap defaultSentenceEndings "Hello world. How are you?".data) 7
      < (buildSentenceMap defaultSentenceEndings
          "Hello world. How are you?".data).length :=
  findActiveSentenceIndex_total_contiguous _ (by decide)
    (head_start_zero_of_check _ (by decide)) ((contiguousB_iff _).mp (by decide))
    (by decide) 7

/-- The loop answers `i + k` when the caret is strictly inside the `k`-th
span of an ordered positive-span sequence. -/
theorem findActiveLoop_containment (n c : Nat) :
    ∀ (ss : List Sentence) (i k : Nat) (hk : k < ss.length),
      i + ss.length = n →
      (∀ s ∈ ss, s.start < s.stop) →
      List.Pairwise (fun a b => a.stop ≤ b.start) ss →
      (ss.get ⟨k, hk⟩).start ≤ c → c < (ss.get ⟨k, hk⟩).stop →
      findActiveLoop n c i ss = some (i + k) := by
  intro ss
  induction ss with
  | nil =>
    intro i k hk
    exact absurd hk (by simp)
  | cons s rest ihr =>
    intro i k hk hn hpos hpw hc1 hc2
    obtain ⟨hps, hpw2⟩ := List.pairwise_cons.mp hpw
    rw [findActiveLoop_cons]
    cases k with
    | zero =>
      rw [if_pos ⟨hc1, hc2⟩, Nat.add_zero]
    | succ j =>
      have hjlt : j < rest.length := by
        simp only [List.length_cons] at hk
        omega
      have hc1' : (rest.get ⟨j, hjlt⟩).start ≤ c := hc1
      have hc2' : c < (rest.get ⟨j, hjlt⟩).stop := hc2
      have htm : rest.get ⟨j, hjlt⟩ ∈ rest := List.get_mem rest j hjlt
      have hno1 : ¬(s.start ≤ c ∧ c < s.stop) := by
        intro hcon
        obtain ⟨_, hcon2⟩ := hcon
        have h3 := hps _ htm
        omega
      rw [if_neg hno1]
      by_cases h2 : c = s.stop ∧ i < n - 1
      · rw [if_pos h2]
        cases j with
        | zero => rfl
        | succ j2 =>
          exfalso
          cases rest with
          | nil => exact absurd hjlt (by simp)
          | cons u rest2 =>
            have hj2 : j2 < rest2.length := by
              simp only [List.length_cons] at hjlt
              omega
            have hcu1 : (rest2.get ⟨j2, hj2⟩).start ≤ c := hc1'
            obtain ⟨hu, _⟩ := List.pairwise_cons.mp hpw2
            have h3 : u.stop ≤ (rest2.get ⟨j2, hj2⟩).start :=
              hu _ (List.get_mem rest2 j2 hj2)
            have h4 : s.stop ≤ u.start := hps u (List.mem_cons_self u rest2)
            have h5 : u.start < u.stop :=
              hpos u (List.mem_cons_of_mem s (List.mem_cons_self u rest2))
            obtain ⟨h21, _⟩ := h2
            omega
      · rw [if_neg h2]
        rw [ihr (i + 1) j hjlt
          (by simp only [List.length_cons] at hn ⊢; omega)
          (fun u hu => hpos u (List.mem_cons_of_mem s hu)) hpw2 hc1' hc2']
        exact congrArg some (by omega)

/-- The loop answers `i + k + 1` when the caret sits exactly on the `k`-th
span's end and a successor exists. -/
theorem findActiveLoop_boundary (n c : Nat) :
    ∀ (ss : List Sentence) (i k : Nat) (hk : k + 1 < ss.length),
      i + ss.length = n →
      (∀ s ∈ ss, s.start < s.stop) →
      List.Pairwise (fun a b => a.stop ≤ b.start) ss →
      c = (ss.get ⟨k, Nat.lt_of_succ_lt hk⟩).stop →
      findActiveLoop n c i ss = some (i + k + 1) := by
  intro ss
  induction ss with
  | nil =>
    intro i k hk
    exact absurd hk (by simp)
  | cons s rest ihr =>
    intro i k hk hn hpos hpw hc
    obtain ⟨hps, hpw2⟩ := List.pairwise_cons.mp hpw
    rw [findActiveLoop_cons]
    cases k with
    | zero =>
      have hc' : c = s.stop := hc
      have hno1 : ¬(s.start ≤ c ∧ c < s.stop) := by
        intro hcon
        obtain ⟨_, h⟩ := hcon
        omega
      rw [if_neg hno1,
        if_pos ⟨hc', by simp only [List.length_cons] at hn hk; omega⟩]
    | succ j =>
      have hjlt1 : j + 1 < rest.length := by
        simp only [List.length_cons] at hk
        omega
      have hc' : c = (rest.get ⟨j, Nat.lt_of_succ_lt hjlt1⟩).stop := hc
      have htm : rest.get ⟨j, Nat.lt_of_succ_lt hjlt1⟩ ∈ rest :=
        List.get_mem rest j (Nat.lt_of_succ_lt hjlt1)
      have h3 := hps _ htm
      have h5 := hpos _ (List.mem_cons_of_mem s htm)
      have hno1 : ¬(s.start ≤ c ∧ c < s.stop) := by
        intro hcon
        obtain ⟨_, h⟩ := hcon
        omega
      have hno2 : ¬(c = s.stop ∧ i < n - 1) := by
        intro hcon
        obtain ⟨h, _⟩ := hcon
        omega
      rw [if_neg hno1, if_neg hno2]
      rw [ihr (i + 1) j hjlt1
        (by simp only [List.length_cons] at hn ⊢; omega)
        (fun u hu => hpos u (List.mem_cons_of_mem s hu)) hpw2 hc']
      exact congrArg some (by omega)

/-- The loop answers nothing when no span contains the caret and the caret
sits on no non-final span's end. -/
theorem findActiveLoop_none_of (n c : Nat) :
    ∀ (ss : List Sentence) (i : Nat),
      i + ss.length = n →
      (∀ s ∈ ss, ¬(s.start ≤ c ∧ c < s.stop)) →
      (∀ k (hk : k + 1 < ss.length),
          c ≠ (ss.get ⟨k, Nat.lt_of_succ_lt hk⟩).stop) →
      findActiveLoop n c i ss = none := by
  intro ss
  induction ss with
  | nil => intro i _ _ _; rfl
  | cons s rest ihr =>
    intro i hn hnc hnb
    rw [findActiveLoop_cons, if_neg (hnc s (List.mem_cons_self s rest))]
    cases rest with
    | nil =>
      rw [if_neg]
      · rfl
      · intro hcon
        obtain ⟨_, h⟩ := hcon
        simp only [List.length_cons, List.length_nil] at hn
        omega
    | cons u rest2 =>
      rw [if_neg]
      · apply ihr (i + 1)
          (by simp only [List.length_cons] at hn ⊢; omega)
          (fun t ht => hnc t (List.mem_cons_of_mem s ht))
        intro k hk
        exact hnb (k + 1) (by simp only [List.length_cons] at hk ⊢; omega)
      · intro hcon
        obtain ⟨h, _⟩ := hcon
        exact hnb 0 (by simp only [List.length_cons]; omega) h

/-! ## C4 — boundary semantics of the active-sentence resolution -/

set_option maxRecDepth 8192 in
/-- C4: on ordered positive-span sequences `findActiveSentenceIndex`
selects the sentence whose half-open span `[start, end)` strictly contains
the caret; a caret exactly at a non-final sentence's `end` selects the next
sentence; and at the last sentence any caret at or past its `start` selects
it.  In particular, for `"Hello world. How are you?"` caret 13 yields
active index 1. -/
theorem findActiveSentenceIndex_boundary_semantics
    (ss : List Sentence)
    (hpos : ∀ s ∈ ss, s.start < s.stop)
    (hpw : List.Pairwise (fun a b => a.stop ≤ b.start) ss) :
    (∀ c k (hk : k < ss.length),
        (ss.get ⟨k, hk⟩).start ≤ c → c < (ss.get ⟨k, hk⟩).stop →
        findActiveSentenceIndex ss c = Int.ofNat k)
    ∧ (∀ c k (hk : k + 1 < ss.length),
        c = (ss.get ⟨k, Nat.lt_of_succ_lt hk⟩).stop →
        findActiveSentenceIndex ss c = Int.ofNat (k + 1))
    ∧ (∀ (c : Nat) (sl : Sentence), ss.getLast? = some sl → sl.start ≤ c →
        findActiveSentenceIndex ss c = Int.ofNat (ss.length - 1))
    ∧ findActiveSentenceIndex
        (buildSentenceMap defaultSentenceEndings
          "Hello world. How are you?".data) 13 = 1 := by
  have ha : ∀ c k (hk : k < ss.length),
      (ss.get ⟨k, hk⟩).start ≤ c → c < (ss.get ⟨k, hk⟩).stop →
      findActiveSentenceIndex ss c = Int.ofNat k := by
    intro c k hk h1 h2
    unfold findActiveSentenceIndex
    rw [findActiveLoop_containment ss.length c ss 0 k hk (Nat.zero_add _)
      hpos hpw h1 h2]
    show Int.ofNat (0 + k) = Int.ofNat k
    rw [Nat.zero_add]
  have hb : ∀ c k (hk : k + 1 < ss.length),
      c = (ss.get ⟨k, Nat.lt_of_succ_lt hk⟩).stop →
      findActiveSentenceIndex ss c = Int.ofNat (k + 1) := by
    intro c k hk h1
    unfold findActiveSentenceIndex
    rw [findActiveLoop_boundary ss.length c ss 0 k hk (Nat.zero_add _)
      hpos hpw h1]
    show Int.ofNat (0 + k + 1) = Int.ofNat (k + 1)
    rw [Nat.zero_add]
  refine ⟨ha, hb, ?_, by decide⟩
  intro c sl hgl hslc
  have hne : ss ≠ [] := by
    intro h
    subst h
    exact Option.noConfusion hgl
  have hlen : 0 < ss.length := List.length_pos.mpr hne
  have hlast1 : ss.getLast hne = sl := by
    have h0 := List.getLast?_eq_getLast ss hne
    rw [h0] at hgl
    exact Option.some.inj hgl
  have hl2 : ss.length - 1 < ss.length := by omega
  have hget : ss.get ⟨ss.length - 1, hl2⟩ = sl := by
    rw [← hlast1]
    exact (List.getLast_eq_get ss hne).symm
  by_cases hcs : c < sl.stop
  · exact ha c (ss.length - 1) hl2 (by rw [hget]; exact hslc)
      (by rw [hget]; exact hcs)
  · have hpg := List.pairwise_iff_get.mp hpw
    have hnone : findActiveLoop ss.length c 0 ss = none := by
      apply findActiveLoop_none_of ss.length c ss 0 (Nat.zero_add _)
      · intro s hs hcon
        obtain ⟨hcon1, hcon2⟩ := hcon
        obtain ⟨idx, hidx⟩ := List.mem_iff_get.mp hs
        by_cases hix : idx.1 = ss.length - 1
        · have hssl : s = sl := by
            rw [← hidx, ← hget]
            congr 1
            exact Fin.ext hix
          rw [hssl] at hcon2
          omega
        · have hlt2 : idx.1 < ss.length - 1 := by
            have := idx.2
            omega
          have hrel := hpg idx ⟨ss.length - 1, hl2⟩ hlt2
          rw [hidx, hget] at hrel
          omega
      · intro k hk hck
        have hkl : k < ss.length := Nat.lt_of_succ_lt hk
        have hck' : c = (ss.get ⟨k, hkl⟩).stop := hck
        have hlt2 : k < ss.length - 1 := by omega
        have hrel := hpg ⟨k, hkl⟩ ⟨ss.length - 1, hl2⟩ hlt2
        rw [hget] at hrel
        have hposl : sl.start < sl.stop := by
          apply hpos sl
          rw [← hget]
          exact List.get_mem ss (ss.length - 1) hl2
        omega
    unfold findActiveSentenceIndex
    rw [hnone, hgl]
    show (if sl.start ≤ c then Int.ofNat (ss.length - 1) else -1)
      = Int.ofNat (ss.length - 1)
    rw [if_pos hslc]

set_option maxRecDepth 8192 in
/-- Witness for C4: at the tokenizer output for
`"Hello world. How are you?"` caret 5 is strictly inside the first span, so
the resolved index is 0. -/
theorem findActiveSentenceIndex_boundary_semantics_witness :
    findActiveSentenceIndex
        (buildSentenceMap defaultSentenceEndings
          "Hello world. How are you?".data) 5 = Int.ofNat 0 :=
  (findActiveSentenceIndex_boundary_semantics _ (by decide)
      ((orderedB_iff _).mp (by decide))).1 5 0 (by decide) (by decide) (by decide)

/-! ## C9 — tokenizer scenario -/

/-- C9: on `"Hello world. How are you?"` with the default terminator set the
tokenizer produces exactly the two sentences
`{text:"Hello world. ", start:0, end:13}` and
`{text:"How are you?", start:13, end:25}`. -/
theorem buildSentenceMap_hello_world_scenario :
    (buildSentenceMap defaultSentenceEndings "Hello world. How are you?".data).map
        (fun s => (s.text, s.start, s.stop)) =
      [("Hello world. ".data, 0, 13), ("How are you?".data, 13, 25)] := by
  decide

/-! ## C10 — `toggleFocusMode` return value -/

/-- C10: `toggleFocusMode()` is declared (JSDoc `@returns {boolean}` and the
`.d.ts`) to return the new focus-mode state, but its body has no `return`
statement: for every prior state the call evaluates to `undefined`, never a
boolean, although the state itself does toggle. -/
theorem toggleFocusMode_returns_undefined :
    ∀ st : FocusState,
      (toggleFocusMode st).2 = JsValue.undefined
      ∧ (∀ b : Bool, (toggleFocusMode st).2 ≠ JsValue.boolVal b)
      ∧ (toggleFocusMode st).1.focusModeEnabled = !st.focusModeEnabled := by
  intro st
  refine ⟨rfl, ?_, rfl⟩
  intro b h
  exact JsValue.noConfusion h

/-! ## C5 — listeners surviving `destroy()` -/

/-- C5: `destroy()` removes only the `input`, `click` and `selectionchange`
subscriptions; the anonymous `keydown`, `keyup` and `focus` handlers
installed by `attachEvents()` remain attached, and each of them schedules a
scan or an active-sentence update when its signal fires — so editing-surface
signals can still trigger updates after destruction. -/
theorem destroy_leaves_listeners_attached :
    listenersAfterDestroy =
        [⟨.editor, "keydown", .keydownAnon⟩,
         ⟨.editor, "keyup", .keyupAnon⟩,
         ⟨.editor, "focus", .focusAnon⟩]
      ∧ listenersAfterDestroy ≠ []
      ∧ ∀ l ∈ listenersAfterDestroy, handlerSchedulesUpdate l.handler = true := by
  decide

/-! ## C6 — `destroy()` on a non-empty sentence collection -/

/-- C6: the class defines no method named `removeSentenceHighlight`, yet
`destroy()` invokes `this.removeSentenceHighlight(id)` for every stored
sentence id; on any state with a non-empty sentence collection the first
iteration therefore throws a `TypeError` instead of completing and clearing
the state. -/
theorem destroy_throws_on_nonempty_map :
    sentenceHighlighterMethods.contains "removeSentenceHighlight" = false
    ∧ ∀ st : EngineState, st.sentenceMap ≠ [] →
        destroy st =
          .error (.typeError "this.removeSentenceHighlight is not a function") := by
  refine ⟨by decide, ?_⟩
  intro st h
  unfold destroy
  match hm : st.sentenceMap with
  | [] => exact absurd hm h
  | _ :: _ =>
    rw [if_neg (by decide :
      ¬ sentenceHighlighterMethods.contains "removeSentenceHighlight" = true)]

/-- Witness for C6: the rendered one-sentence state has a non-empty
collection and `destroy` on it throws. -/
theorem destroy_throws_on_nonempty_map_witness :
    destroy exIncrementalState =
      .error (.typeError "this.removeSentenceHighlight is not a function") :=
  destroy_throws_on_nonempty_map.2 exIncrementalState (by decide)

/-! ## C8 — scan on empty/whitespace-only text -/

/-- C8 counterexample: scanning `exClearedState` (whitespace-only text,
`onSentenceChange` configured) empties the collection but fires the
`onSentenceChange` callback zero times, not exactly once. -/
theorem scan_empty_no_sentenceChange_callback :
    exClearedState.sentenceMap ≠ []
    ∧ (scanAndHighlight exOptsCallbacks exClearedState).1.sentenceMap = []
    ∧ ((scanAndHighlight exOptsCallbacks exClearedState).2.filter
        isSentenceChangeCallback).length = 0 := by
  decide

/-- C8 amended: when a scan runs on empty or whitespace-only text, the
sentence collection becomes empty, the active reference becomes none, the
rendered regions are cleared (and the stored fingerprint is reset) — and the
function returns before the callback step, so `onSentenceChange` does not
fire at all on this path. -/
theorem scanAndHighlight_empty_clears_without_callback
    (opts : Options) (st : EngineState) (h : (jsTrim st.text).length = 0) :
    scanAndHighlight opts st =
      ({ st with
          sentenceMap := []
          sentenceElements := []
          activeSentenceId := none
          lastContentHash := none },
       [Effect.clearHighlights]) := by
  unfold scanAndHighlight
  rw [if_pos h]

/-- Witness for C8: the whitespace-only state is cleared with a single
`clearHighlights` effect and no callbacks. -/
theorem scanAndHighlight_empty_clears_without_callback_witness :
    scanAndHighlight exOptsCallbacks exClearedState =
      ({ exClearedState with
          sentenceMap := []
          sentenceElements := []
          activeSentenceId := none
          lastContentHash := none },
       [Effect.clearHighlights]) :=
  scanAndHighlight_empty_clears_without_callback exOptsCallbacks exClearedState
    (by decide)

/-! ## C7 — equality short-circuit -/

set_option maxRecDepth 8192 in
/-- C7 counterexample: from `exIncrementalState` a scan takes the incremental
branch, the newly resolved active id equals the current active id, and yet
the scan's effect trace removes and re-adds the active class/attribute and
invokes `onActiveSentenceChange` — no short-circuit on this path. -/
theorem scan_incremental_no_short_circuit :
    (exSentences.get?
        (findActiveSentenceIndex exSentences exIncrementalState.caretOffset).toNat).map
          (·.id) = exIncrementalState.activeSentenceId
    ∧ ((scanAndHighlight exOpts exIncrementalState).2.filter
        isActiveChangeCallback).length = 1
    ∧ 0 < ((scanAndHighlight exOpts exIncrementalState).2.filter
        isRegionMutation).length := by
  decide

/-- C7 amended: the equality short-circuit holds on the navigation-driven
path: when `updateActiveSentence` resolves an active sentence whose id
equals the current active id, it returns with the state unchanged and an
empty effect trace (no mutation, no callback).  (The incremental scan branch
`updateActiveSentenceFromMap` performs no such check.) -/
theorem updateActiveSentence_equality_short_circuit
    (opts : Options) (st : EngineState) (k : Nat) (s : Sentence)
    (hk : findActiveSentenceIndex st.sentenceMap st.caretOffset = Int.ofNat k)
    (hs : st.sentenceMap.get? k = some s)
    (hid : some s.id = st.activeSentenceId) :
    updateActiveSentence opts st = (st, []) := by
  have hlen : ¬ st.sentenceMap.length = 0 := by
    intro h0
    rw [List.length_eq_zero] at h0
    rw [h0] at hs
    exact Option.noConfusion hs
  have hneg : ¬ (Int.ofNat k < 0) := by
    simp [not_lt]
  unfold updateActiveSentence
  simp only [hk, if_neg hlen, if_neg hneg]
  simp only [show (Int.ofNat k).toNat = k from rfl, hs]
  rw [if_pos hid]

set_option maxRecDepth 8192 in
/-- Witness for C7: at `exIncrementalState` the navigation path resolves the
already-active sentence and performs nothing. -/
theorem updateActiveSentence_equality_short_circuit_witness :
    updateActiveSentence exOpts exIncrementalState = (exIncrementalState, []) :=
  updateActiveSentence_equality_short_circuit exOpts exIncrementalState 0
    (exSentences.head (by decide)) (by decide) (by decide) (by decide)

end SentenceHighlighter
